import Mathlib

/-!
Shallow embedding of `src/key_generating.rs` from bincode-sled.

A `KeyGeneratingTree` wraps a typed sled `Tree` together with a pluggable key
generator; the `Counter` strategy mints monotonically increasing `u64` keys
with an atomic fetch-and-add.  Machine integers are modelled as `Nat` with
explicit `% 2 ^ 64`; u64 overflow is modelled as wrapping (release-mode
semantics; `AtomicU64::fetch_add` always wraps).  The underlying typed store
(`crate::Tree` and `crate::Batch`, whose code is not under `src/`) is
modelled from the spec as an association list with the newest binding first.
Store I/O failures are injected as `Except.error` oracles and panics are
modelled as `Except.error`.  Since each `next_key` call is a single atomic
instruction, a concurrent interleaving of calls is modelled as the sequence
of those atomic steps in the order they hit the counter; borrowed references
to the one shared generator instance are modelled by threading the counter
state.
-/

namespace BincodeSled

/-- Modulus of u64 arithmetic: key arithmetic in the counter strategy is mod
`2 ^ 64`. -/
def U64 : Nat := 2 ^ 64

/-- Embeds `Counter(Arc<AtomicU64>)` (src/key_generating.rs:170): the state
is the current value of the atomic, always `< U64` in reachable states. -/
structure Counter where
  val : Nat
deriving DecidableEq

/-- Embeds `Counter::next_key` (src/key_generating.rs:184-186):
`self.0.fetch_add(1, Ordering::Relaxed)` returns the previous value and
stores the wrapped successor. -/
def Counter.next_key (c : Counter) : Nat × Counter :=
  (c.val, ⟨(c.val + 1) % U64⟩)

/-- Modelled from the spec (section 6): the underlying typed store partition
(`crate::Tree`, code not under `src/`).  Contents are an association list
with the newest binding first; `lookup` finds the newest binding for a key. -/
def Tree.lookup {V : Type} : List (Nat × V) → Nat → Option V
  | [], _ => none
  | p :: rest, k => if p.1 = k then some p.2 else Tree.lookup rest k

/-- Modelled from the spec (section 6): `insert(key, value) -> Option<OldValue>`
returns the previous binding at the key together with the updated contents. -/
def Tree.insert {V : Type} (t : List (Nat × V)) (k : Nat) (v : V) :
    Option V × List (Nat × V) :=
  (Tree.lookup t k, (k, v) :: t)

/-- Modelled from the spec (section 6): `last() -> Option<(Key, Value)>`, the
greatest-keyed entry of the partition. -/
def Tree.last {V : Type} : List (Nat × V) → Option (Nat × V)
  | [] => none
  | p :: rest =>
    match Tree.last rest with
    | none => some p
    | some m => if p.1 ≤ m.1 then some m else some p

/-- Modelled from the spec (section 6, glossary): one pending operation of a
sled `Batch`; applying a batch plays the queued operations in order. -/
inductive BatchOp (V : Type) where
  | insert (key : Nat) (value : V)
  | remove (key : Nat)
deriving DecidableEq

/-- Key written or removed by a pending batch operation. -/
def BatchOp.opKey {V : Type} : BatchOp V → Nat
  | BatchOp.insert k _ => k
  | BatchOp.remove k => k

/-- Applies one pending batch operation to the store contents. -/
def Tree.applyOp {V : Type} (t : List (Nat × V)) : BatchOp V → List (Nat × V)
  | BatchOp.insert k v => (Tree.insert t k v).2
  | BatchOp.remove k => t.filter (fun p => p.1 != k)

/-- Modelled from the spec (section 6): atomic `apply_batch` plays the queued
operations in order (success path of the commit). -/
def Tree.apply_batch {V : Type} (t : List (Nat × V)) (b : List (BatchOp V)) :
    List (Nat × V) :=
  b.foldl Tree.applyOp t

/-- Embeds `Counter::initialize` (src/key_generating.rs:173-182).  The outcome
of the `tree.last()` scan is passed as an `Except` oracle because the
underlying store I/O may fail; the source's `.expect(..)` panic on a failed
scan is modelled as `Except.error`.  The seed `key + 1` is u64 arithmetic,
wrapping mod `2 ^ 64`. -/
def Counter.init {V : Type} (lastRes : Except String (Option (Nat × V))) :
    Except String Counter :=
  match lastRes with
  | Except.error e =>
      Except.error ("KeyGenerating Counter failed to access sled Tree. " ++ e)
  | Except.ok (some p) => Except.ok ⟨(p.1 + 1) % U64⟩
  | Except.ok none => Except.ok ⟨0⟩

/-- Embeds `KeyGeneratingTree<Counter, u64, V>` (src/key_generating.rs:36-43),
specialised to the counter strategy the claims are about: the handle owns the
one generator instance plus the inner tree contents. -/
structure KeyGeneratingTree (V : Type) where
  key_generator : Counter
  inner : List (Nat × V)
deriving DecidableEq

/-- Embeds `KeyGeneratingTree::open` (src/key_generating.rs:51-59) composed of
the underlying partition open (spec-modelled, outcome `openRes`) and the
generator initialization; `scanFail` injects an I/O failure of the
`tree.last()` scan inside `Counter::initialize`. -/
def KeyGeneratingTree.openWith {V : Type}
    (openRes : Except String (List (Nat × V))) (scanFail : Option String) :
    Except String (KeyGeneratingTree V) :=
  match openRes with
  | Except.error e => Except.error e
  | Except.ok t =>
    match Counter.init (match scanFail with
      | some e => Except.error e
      | none => Except.ok (Tree.last t)) with
    | Except.error e => Except.error e
    | Except.ok kg => Except.ok ⟨kg, t⟩

/-- Success path of `KeyGeneratingTree::open` over partition contents `t`:
the underlying open succeeds and the `last()` scan does not fail. -/
def KeyGeneratingTree.openOk {V : Type} (t : List (Nat × V)) :
    Except String (KeyGeneratingTree V) :=
  KeyGeneratingTree.openWith (Except.ok t) none

/-- Embeds `KeyGeneratingTree::insert` (src/key_generating.rs:62-66), success
path of the underlying write: mints a key, writes `(key, value)`, returns the
key and the previous value at it. -/
def KeyGeneratingTree.insert {V : Type} (t : KeyGeneratingTree V) (v : V) :
    (Nat × Option V) × KeyGeneratingTree V :=
  let mint := t.key_generator.next_key
  let w := Tree.insert t.inner mint.1 v
  ((mint.1, w.1), ⟨mint.2, w.2⟩)

/-- Embeds `KeyGeneratingTree::insert` (src/key_generating.rs:62-66) when the
underlying `Tree::insert` write fails with error `e` (spec-modelled store I/O
failure): the source computes `res.map(|opt_v| (key, opt_v))`, so the error
passes through verbatim, and the key minted before the write stays consumed. -/
def KeyGeneratingTree.insertErr {V : Type} (t : KeyGeneratingTree V) (_v : V)
    (e : String) : Except String (Nat × Option V) × KeyGeneratingTree V :=
  let mint := t.key_generator.next_key
  (Except.map (fun old => (mint.1, old)) (Except.error e : Except String (Option V)),
    { t with key_generator := mint.2 })

/-- Embeds `KeyGeneratingTree::insert_with_key` (src/key_generating.rs:73-75):
bypasses key generation entirely. -/
def KeyGeneratingTree.insert_with_key {V : Type} (t : KeyGeneratingTree V)
    (k : Nat) (v : V) : Option V × KeyGeneratingTree V :=
  let w := Tree.insert t.inner k v
  (w.1, { t with inner := w.2 })

/-- Embeds `KeyGeneratingTree::next_key` (src/key_generating.rs:77-79). -/
def KeyGeneratingTree.next_key {V : Type} (t : KeyGeneratingTree V) :
    Nat × KeyGeneratingTree V :=
  let mint := t.key_generator.next_key
  (mint.1, { t with key_generator := mint.2 })

/-- Embeds `KeyGeneratingTree::insert_fn` (src/key_generating.rs:84-89): mints
a key, builds the value by applying `f` to that key, then performs the same
write as `insert` via `insert_with_key`. -/
def KeyGeneratingTree.insert_fn {V : Type} (t : KeyGeneratingTree V)
    (f : Nat → V) : (Nat × Option V) × KeyGeneratingTree V :=
  let mint := t.key_generator.next_key
  let value := f mint.1
  let w := KeyGeneratingTree.insert_with_key { t with key_generator := mint.2 } mint.1 value
  ((mint.1, w.1), w.2)

/-- Embeds `KeyGeneratingBatch` (src/key_generating.rs:145-154): the pending
operations; the borrowed reference to the parent handle's generator is
modelled by threading the `Counter` state through `KeyGeneratingBatch.insert`. -/
structure KeyGeneratingBatch (V : Type) where
  inner : List (BatchOp V)
deriving DecidableEq

/-- Embeds `KeyGeneratingBatch::insert` (src/key_generating.rs:156-159): mints
a key from the shared generator and queues the insertion. -/
def KeyGeneratingBatch.insert {V : Type} (c : Counter) (b : KeyGeneratingBatch V)
    (v : V) : Counter × KeyGeneratingBatch V :=
  let mint := c.next_key
  (mint.2, ⟨b.inner ++ [BatchOp.insert mint.1 v]⟩)

/-- Embeds `KeyGeneratingTree::new_batch` (src/key_generating.rs:107-112):
`Batch::default()` bound to this handle's generator. -/
def KeyGeneratingTree.new_batch {V : Type} (_t : KeyGeneratingTree V) :
    KeyGeneratingBatch V :=
  ⟨[]⟩

/-- Embeds `KeyGeneratingTree::apply_batch` (src/key_generating.rs:114-116),
success path: commits the queued operations atomically to the inner tree. -/
def KeyGeneratingTree.apply_batch {V : Type} (t : KeyGeneratingTree V)
    (b : KeyGeneratingBatch V) : KeyGeneratingTree V :=
  { t with inner := Tree.apply_batch t.inner b.inner }

/-- Embeds `KeyGeneratingTransactionalTree::insert`
(src/key_generating.rs:204-209), success path: mints a key from the borrowed
shared generator and records the transactional write. -/
def KeyGeneratingTransactionalTree.insert {V : Type} (c : Counter)
    (writes : List (Nat × V)) (v : V) : Counter × List (Nat × V) :=
  let mint := c.next_key
  (mint.2, (mint.1, v) :: writes)

/-- Sequence of keys minted by `n` successive `Counter::next_key` calls
starting from counter state `c`. -/
def mints (c : Counter) : Nat → List Nat
  | 0 => []
  | n + 1 => (Counter.next_key c).1 :: mints (Counter.next_key c).2 n

/-- Iterates `KeyGeneratingTree::insert` over a list of values, collecting the
returned (key, previous value) pairs in call order. -/
def KeyGeneratingTree.insertMany {V : Type} (t : KeyGeneratingTree V) :
    List V → List (Nat × Option V) × KeyGeneratingTree V
  | [] => ([], t)
  | v :: vs =>
    let s := t.insert v
    let rest := s.2.insertMany vs
    (s.1 :: rest.1, rest.2)

/-- Iterates `KeyGeneratingBatch::insert` over a list of values, starting from
the shared counter state `c` and pending batch `b`. -/
def buildBatchAux {V : Type} (c : Counter) (b : KeyGeneratingBatch V) :
    List V → Counter × KeyGeneratingBatch V
  | [] => (c, b)
  | v :: vs =>
    let s := KeyGeneratingBatch.insert c b v
    buildBatchAux s.1 s.2 vs

/-- Builds a batch of inserts for `vs` through `new_batch` and
`KeyGeneratingBatch::insert`, returning the batch and the handle whose shared
generator advanced (the batch borrows the handle's generator). -/
def KeyGeneratingTree.buildBatch {V : Type} (t : KeyGeneratingTree V)
    (vs : List V) : KeyGeneratingBatch V × KeyGeneratingTree V :=
  let s := buildBatchAux t.key_generator t.new_batch vs
  (s.2, { t with key_generator := s.1 })

/-- One of the three write paths that mint keys from the shared generator. -/
inductive WPath where
  | direct
  | batch
  | txn
deriving DecidableEq

/-- Joint state of a handle, a pending batch built from it, and a
transactional context borrowing its generator. -/
structure MultiState (V : Type) where
  handle : KeyGeneratingTree V
  pending : KeyGeneratingBatch V
  txnWrites : List (Nat × V)
deriving DecidableEq

/-- Performs one minting write on the chosen path; all three paths mint from
the single shared generator instance of the handle. -/
def multiStep {V : Type} (st : MultiState V) : WPath × V → Nat × MultiState V
  | (WPath.direct, v) =>
    let s := st.handle.insert v
    (s.1.1, { st with handle := s.2 })
  | (WPath.batch, v) =>
    let k := st.handle.key_generator.val
    let s := KeyGeneratingBatch.insert st.handle.key_generator st.pending v
    (k, { st with handle := { st.handle with key_generator := s.1 }, pending := s.2 })
  | (WPath.txn, v) =>
    let k := st.handle.key_generator.val
    let s := KeyGeneratingTransactionalTree.insert st.handle.key_generator st.txnWrites v
    (k, { st with handle := { st.handle with key_generator := s.1 }, txnWrites := s.2 })

/-- Runs an interleaving of minting writes across the three paths, collecting
the minted keys in interleaving order. -/
def multiExec {V : Type} (st : MultiState V) :
    List (WPath × V) → List Nat × MultiState V
  | [] => ([], st)
  | op :: ops =>
    let s := multiStep st op
    let rest := multiExec s.2 ops
    (s.1 :: rest.1, rest.2)

/-- Runs a schedule of concurrent `next_key` calls: each call is one atomic
fetch-and-add instruction, so an interleaving is exactly the order in which
the calls hit the counter; `sched` lists the calling thread ids in that
order, and the result pairs each thread id with the key its call returned. -/
def runSched (c : Counter) : List Nat → List (Nat × Nat)
  | [] => []
  | tid :: rest => (tid, (Counter.next_key c).1) :: runSched (Counter.next_key c).2 rest

/-- Batch insert operations for a list of (key, value) pairs. -/
def insOps {V : Type} (ps : List (Nat × V)) : List (BatchOp V) :=
  ps.map (fun p => BatchOp.insert p.1 p.2)

theorem U64_pos : 0 < U64 := by decide

theorem mints_length (c : Counter) (n : Nat) : (mints c n).length = n := by
  induction n generalizing c with
  | zero => rfl
  | succ n ih => simp [mints, ih]

theorem mints_eq_map (c : Counter) (n : Nat) (hc : c.val < U64) :
    mints c n = (List.range n).map (fun i => (c.val + i) % U64) := by
  induction n generalizing c with
  | zero => rfl
  | succ n ih =>
    have hc' : ((c.val + 1) % U64 : Nat) < U64 := Nat.mod_lt _ U64_pos
    have htail := ih ⟨(c.val + 1) % U64⟩ hc'
    have hfun : (fun i => ((c.val + 1) % U64 + i) % U64)
        = fun i => (c.val + Nat.succ i) % U64 := by
      funext i
      rw [Nat.mod_add_mod]
      have : c.val + 1 + i = c.val + Nat.succ i := by omega
      rw [this]
    rw [List.range_succ_eq_map, List.map_cons, List.map_map]
    have hhead : (c.val + 0) % U64 = c.val := by
      rw [Nat.add_zero, Nat.mod_eq_of_lt hc]
    simp only [mints, Counter.next_key]
    rw [htail, hfun]
    rw [hhead]
    rfl

theorem mints_eq_of_no_wrap (c : Counter) (n : Nat) (h : c.val + n ≤ U64) :
    mints c n = (List.range n).map (fun i => c.val + i) := by
  cases n with
  | zero => rfl
  | succ n =>
    have hc : c.val < U64 := by omega
    rw [mints_eq_map c (n + 1) hc]
    apply List.map_congr_left
    intro i hi
    have : i < n + 1 := List.mem_range.mp hi
    exact Nat.mod_eq_of_lt (by omega)

theorem mints_pairwise_lt (c : Counter) (n : Nat) (h : c.val + n ≤ U64) :
    (mints c n).Pairwise (· < ·) := by
  rw [mints_eq_of_no_wrap c n h]
  exact List.Pairwise.map _ (fun a b hab => by omega) (List.pairwise_lt_range n)

theorem mints_nodup (c : Counter) (n : Nat) (hc : c.val < U64) (hn : n ≤ U64) :
    (mints c n).Nodup := by
  rw [mints_eq_map c n hc]
  refine List.Nodup.map_on ?_ (List.nodup_range n)
  intro i hi j hj hij
  have hi' : i < n := List.mem_range.mp hi
  have hj' : j < n := List.mem_range.mp hj
  have : i ≡ j [MOD U64] := Nat.ModEq.add_left_cancel' c.val hij
  have : i % U64 = j % U64 := this
  rwa [Nat.mod_eq_of_lt (by omega), Nat.mod_eq_of_lt (by omega)] at this

theorem mints_wrap_not_nodup : ¬ (mints ⟨0⟩ (U64 + 1)).Nodup := by
  intro h
  rw [mints_eq_map ⟨0⟩ (U64 + 1) U64_pos] at h
  rw [List.range_succ, List.map_append] at h
  rcases List.nodup_append.mp h with ⟨-, -, hdisj⟩
  have h0 : (0 : Nat) ∈ (List.range U64).map (fun i => (0 + i) % U64) := by
    refine List.mem_map.mpr ⟨0, List.mem_range.mpr U64_pos, by simp⟩
  have h0' : (0 : Nat) ∈ [(0 + U64) % U64] := by simp
  exact hdisj h0 h0'

theorem mints_lower_bound (c : Counter) (n : Nat) (h : c.val + n ≤ U64) :
    ∀ x ∈ mints c n, c.val ≤ x := by
  rw [mints_eq_of_no_wrap c n h]
  intro x hx
  rcases List.mem_map.mp hx with ⟨i, -, rfl⟩
  omega

theorem insertMany_keys {V : Type} (t : KeyGeneratingTree V) (vs : List V) :
    ((t.insertMany vs).1.map Prod.fst) = mints t.key_generator vs.length := by
  induction vs generalizing t with
  | nil => rfl
  | cons v vs ih =>
    simp only [KeyGeneratingTree.insertMany, List.length_cons, mints, List.map_cons]
    exact congrArg _ (ih _)

theorem buildBatchAux_inner {V : Type} (c : Counter) (b : KeyGeneratingBatch V)
    (vs : List V) :
    (buildBatchAux c b vs).2.inner
      = b.inner ++ insOps ((mints c vs.length).zip vs) := by
  induction vs generalizing c b with
  | nil => simp [buildBatchAux, insOps]
  | cons v vs ih =>
    simp only [buildBatchAux, KeyGeneratingBatch.insert, List.length_cons, mints,
      List.zip_cons_cons, insOps, List.map_cons]
    rw [ih]
    simp [insOps, List.append_assoc]

theorem multiExec_keys {V : Type} (st : MultiState V) (ops : List (WPath × V)) :
    (multiExec st ops).1 = mints st.handle.key_generator ops.length := by
  induction ops generalizing st with
  | nil => rfl
  | cons op ops ih =>
    obtain ⟨path, v⟩ := op
    cases path
    case direct => exact congrArg _ (ih _)
    case batch => exact congrArg _ (ih _)
    case txn => exact congrArg _ (ih _)

theorem runSched_keys (c : Counter) (sched : List Nat) :
    (runSched c sched).map Prod.snd = mints c sched.length := by
  induction sched generalizing c with
  | nil => rfl
  | cons tid rest ih =>
    simp only [runSched, List.map_cons, List.length_cons, mints]
    exact congrArg _ (ih _)

theorem tree_last_cons_none {V : Type} (p : Nat × V) (rest : List (Nat × V))
    (h : Tree.last rest = none) : Tree.last (p :: rest) = some p := by
  simp [Tree.last, h]

theorem tree_last_cons_some {V : Type} (p m : Nat × V) (rest : List (Nat × V))
    (h : Tree.last rest = some m) :
    Tree.last (p :: rest) = if p.1 ≤ m.1 then some m else some p := by
  simp [Tree.last, h]

theorem tree_last_eq_none_iff {V : Type} (t : List (Nat × V)) :
    Tree.last t = none ↔ t = [] := by
  constructor
  · intro h
    cases t with
    | nil => rfl
    | cons p rest =>
      cases hrest : Tree.last rest with
      | none => rw [tree_last_cons_none p rest hrest] at h; exact absurd h (by simp)
      | some m =>
        rw [tree_last_cons_some p m rest hrest] at h
        by_cases hle : p.1 ≤ m.1 <;> simp [hle] at h
  · intro h; subst h; rfl

theorem tree_last_mem {V : Type} (t : List (Nat × V)) (m : Nat × V)
    (h : Tree.last t = some m) : m ∈ t := by
  induction t generalizing m with
  | nil => exact absurd h (by simp [Tree.last])
  | cons p rest ih =>
    cases hrest : Tree.last rest with
    | none =>
      rw [tree_last_cons_none p rest hrest] at h
      cases h
      exact List.mem_cons_self p rest
    | some m' =>
      rw [tree_last_cons_some p m' rest hrest] at h
      by_cases hle : p.1 ≤ m'.1
      · rw [if_pos hle] at h
        cases h
        exact List.mem_cons_of_mem p (ih m hrest)
      · rw [if_neg hle] at h
        cases h
        exact List.mem_cons_self p rest

theorem tree_last_key_max {V : Type} (t : List (Nat × V)) (m : Nat × V)
    (h : Tree.last t = some m) : ∀ p ∈ t, p.1 ≤ m.1 := by
  induction t generalizing m with
  | nil => exact absurd h (by simp [Tree.last])
  | cons q rest ih =>
    intro p hp
    cases hrest : Tree.last rest with
    | none =>
      rw [tree_last_cons_none q rest hrest] at h
      have hrest' : rest = [] := (tree_last_eq_none_iff rest).mp hrest
      subst hrest'
      rcases List.mem_singleton.mp hp with rfl
      cases h
      exact Nat.le_refl _
    | some m' =>
      rw [tree_last_cons_some q m' rest hrest] at h
      by_cases hle : q.1 ≤ m'.1
      · rw [if_pos hle] at h
        cases h
        rcases List.mem_cons.mp hp with rfl | hp'
        · exact hle
        · exact ih m hrest p hp'
      · rw [if_neg hle] at h
        cases h
        rcases List.mem_cons.mp hp with rfl | hp'
        · exact Nat.le_refl _
        · exact Nat.le_trans (ih m' hrest p hp') (by omega)

theorem tree_lookup_cons_self {V : Type} (t : List (Nat × V)) (k : Nat) (v : V) :
    Tree.lookup ((k, v) :: t) k = some v := by
  simp [Tree.lookup]

theorem tree_lookup_cons_other {V : Type} (t : List (Nat × V)) (k k₁ : Nat)
    (v₁ : V) (h : k₁ ≠ k) : Tree.lookup ((k₁, v₁) :: t) k = Tree.lookup t k := by
  simp [Tree.lookup, h]

theorem apply_insOps_lookup_of_notmem {V : Type} (ps : List (Nat × V))
    (t : List (Nat × V)) (k : Nat) (h : k ∉ ps.map Prod.fst) :
    Tree.lookup (Tree.apply_batch t (insOps ps)) k = Tree.lookup t k := by
  induction ps generalizing t with
  | nil => rfl
  | cons p ps ih =>
    simp only [List.map_cons, List.mem_cons, not_or] at h
    have step : Tree.apply_batch t (insOps (p :: ps))
        = Tree.apply_batch ((p.1, p.2) :: t) (insOps ps) := rfl
    rw [step, ih _ h.2, tree_lookup_cons_other _ _ _ _ (fun he => h.1 he.symm)]

theorem apply_insOps_lookup_mem {V : Type} (ps : List (Nat × V))
    (t : List (Nat × V)) (hnd : (ps.map Prod.fst).Nodup) :
    ∀ p ∈ ps, Tree.lookup (Tree.apply_batch t (insOps ps)) p.1 = some p.2 := by
  induction ps generalizing t with
  | nil => intro p hp; exact absurd hp (List.not_mem_nil p)
  | cons q ps ih =>
    intro p hp
    simp only [List.map_cons, List.nodup_cons] at hnd
    have step : Tree.apply_batch t (insOps (q :: ps))
        = Tree.apply_batch ((q.1, q.2) :: t) (insOps ps) := rfl
    rcases List.mem_cons.mp hp with rfl | hp'
    · rw [step, apply_insOps_lookup_of_notmem ps _ p.1 hnd.1]
      exact tree_lookup_cons_self t p.1 p.2
    · rw [step]
      exact ih _ hnd.2 p hp'

theorem insOps_keys {V : Type} (ps : List (Nat × V)) :
    (insOps ps).map BatchOp.opKey = ps.map Prod.fst := by
  simp only [insOps, List.map_map]
  rfl

theorem buildBatch_keys {V : Type} (t : KeyGeneratingTree V) (vs : List V) :
    (t.buildBatch vs).1.inner = insOps ((mints t.key_generator vs.length).zip vs) := by
  have hb := buildBatchAux_inner t.key_generator t.new_batch vs
  simpa [KeyGeneratingTree.buildBatch, KeyGeneratingTree.new_batch] using hb

/-- C9: `insert_fn` mints exactly one key per call and passes that same key
to the caller-supplied constructor, to the underlying store write, and back
to the caller: the returned key `k` is the minted counter value, the store
write performed is `insert(k, f(k))`, reading `k` back yields `f(k)`, and the
returned old value is the previous binding at `k`. -/
theorem c9_insert_fn_same_key (V : Type) (t : KeyGeneratingTree V) (f : Nat → V) :
    (t.insert_fn f).1.1 = t.key_generator.val ∧
    (t.insert_fn f).2.inner
      = (Tree.insert t.inner t.key_generator.val (f t.key_generator.val)).2 ∧
    Tree.lookup (t.insert_fn f).2.inner t.key_generator.val
      = some (f t.key_generator.val) ∧
    (t.insert_fn f).1.2 = Tree.lookup t.inner t.key_generator.val := by
  refine ⟨rfl, rfl, ?_, rfl⟩
  exact tree_lookup_cons_self t.inner t.key_generator.val (f t.key_generator.val)

/-- C10: counter-strategy key arithmetic is mod `2 ^ 64`: `next_key` returns
the current value `c` and stores `(c + 1) % 2 ^ 64`, so after a call returns
`2 ^ 64 - 1` the next call returns `0`; likewise the initialization seed
`greatest key + 1` is u64 arithmetic, wrapping to `0` when the greatest
existing key is `2 ^ 64 - 1`. -/
theorem c10_counter_wraps_mod_u64 :
    (∀ c : Nat, Counter.next_key ⟨c⟩ = (c, ⟨(c + 1) % U64⟩)) ∧
    Counter.next_key ⟨U64 - 1⟩ = (U64 - 1, ⟨0⟩) ∧
    (Counter.next_key (Counter.next_key ⟨U64 - 1⟩).2).1 = 0 ∧
    (∀ v : Nat, @Counter.init Nat (Except.ok (some (U64 - 1, v))) = Except.ok ⟨0⟩) := by
  refine ⟨fun _ => rfl, by decide, rfl, fun v => ?_⟩
  show Except.ok (⟨(U64 - 1 + 1) % U64⟩ : Counter) = Except.ok ⟨0⟩
  rw [show ((U64 - 1 + 1) % U64 : Nat) = 0 by decide]

/-- C6: if the `last()` scan fails during counter-strategy initialization the
generator is not constructed (no silent fallback seed), and `open` fails
exactly when the underlying open fails or the generator's initialize step
(its scan) fails. -/
theorem c6_init_failure_fatal :
    (∀ e : String, (@Counter.init Nat (Except.error e)).isOk = false) ∧
    (∀ (openRes : Except String (List (Nat × Nat))) (scanFail : Option String),
      (KeyGeneratingTree.openWith openRes scanFail).isOk
        = (openRes.isOk && scanFail.isNone)) := by
  refine ⟨fun e => rfl, fun openRes scanFail => ?_⟩
  cases openRes with
  | error e => rfl
  | ok t =>
    cases scanFail with
    | some e => rfl
    | none =>
      cases hl : Tree.last t with
      | none =>
        simp [KeyGeneratingTree.openWith, Counter.init, hl, Except.isOk, Except.toBool]
      | some m =>
        simp [KeyGeneratingTree.openWith, Counter.init, hl, Except.isOk, Except.toBool]

/-- C7 (amended): when the underlying store write of a direct insert fails,
the error is returned verbatim, the store is untouched, and the minted key is
not returned to the generator: the counter still advances, and the next key
minted is strictly greater than the consumed key provided the consumed key is
not `2 ^ 64 - 1` (at which the counter wraps to `0`). -/
theorem c7_write_failure_key_consumed (V : Type) (t : KeyGeneratingTree V)
    (v w : V) (e : String) (h : t.key_generator.val + 1 < U64) :
    (t.insertErr v e).1 = Except.error e ∧
    (t.insertErr v e).2.inner = t.inner ∧
    (t.insertErr v e).2.key_generator.val = t.key_generator.val + 1 ∧
    ((t.insertErr v e).2.insert w).1.1 = t.key_generator.val + 1 ∧
    t.key_generator.val < ((t.insertErr v e).2.insert w).1.1 := by
  have hmod : (t.key_generator.val + 1) % U64 = t.key_generator.val + 1 :=
    Nat.mod_eq_of_lt h
  refine ⟨rfl, rfl, hmod, hmod, ?_⟩
  have hk : ((t.insertErr v e).2.insert w).1.1 = (t.key_generator.val + 1) % U64 := rfl
  rw [hk, hmod]
  omega

/-- Witness for C7: a failed write on a fresh handle consumes key 0, returns
the error verbatim, and the next minted key is 1 > 0. -/
theorem c7_write_failure_key_consumed_witness :
    (0 : Nat) + 1 < U64 ∧
    (((⟨⟨0⟩, []⟩ : KeyGeneratingTree Nat).insertErr 1 "io").1 = Except.error "io" ∧
      ((⟨⟨0⟩, []⟩ : KeyGeneratingTree Nat).insertErr 1 "io").2.inner = [] ∧
      ((⟨⟨0⟩, []⟩ : KeyGeneratingTree Nat).insertErr 1 "io").2.key_generator.val = 0 + 1 ∧
      ((((⟨⟨0⟩, []⟩ : KeyGeneratingTree Nat).insertErr 1 "io").2.insert 2).1.1 = 0 + 1 ∧
        (0 : Nat) < (((⟨⟨0⟩, []⟩ : KeyGeneratingTree Nat).insertErr 1 "io").2.insert 2).1.1)) :=
  ⟨by decide, by
    have h := c7_write_failure_key_consumed Nat ⟨⟨0⟩, []⟩ 1 2 "io" (by decide)
    exact ⟨h.1, h.2.1, h.2.2.1, h.2.2.2.1, h.2.2.2.2⟩⟩

/-- C7 counterexample at the u64 wrap: a failed write that consumed key
`2 ^ 64 - 1` leaves the counter wrapped to 0, so the next minted key is 0,
which is not strictly greater than the consumed key. -/
theorem c7_write_failure_wrap_counterexample :
    ((⟨⟨U64 - 1⟩, []⟩ : KeyGeneratingTree Nat).insertErr 0 "io").2.key_generator.val = 0 ∧
    ((((⟨⟨U64 - 1⟩, []⟩ : KeyGeneratingTree Nat).insertErr 0 "io").2.insert 0).1.1 = 0 ∧
      ¬ (U64 - 1 < (((⟨⟨U64 - 1⟩, []⟩ : KeyGeneratingTree Nat).insertErr 0 "io").2.insert 0).1.1)) :=
  ⟨rfl, rfl, fun h => absurd (by exact h) (by decide)⟩

/-- C5 (amended): every interleaving of concurrent `next_key` calls is a
serialization of single atomic fetch-and-add steps; for any schedule, the
returned values in execution order are exactly the consecutive keys
`c, c + 1, ...` (one per call, no gaps, independent of thread ids) and no
two calls return the same value, provided the counter does not wrap
(`seed + number of calls ≤ 2 ^ 64`). -/
theorem c5_concurrent_next_key_distinct (c : Counter) (sched : List Nat)
    (h : c.val + sched.length ≤ U64) :
    (runSched c sched).map Prod.snd
      = (List.range sched.length).map (fun i => c.val + i) ∧
    ((runSched c sched).map Prod.snd).Nodup := by
  refine ⟨by rw [runSched_keys]; exact mints_eq_of_no_wrap c sched.length h, ?_⟩
  rw [runSched_keys]
  by_cases h0 : sched.length = 0
  · rw [h0]; exact List.Pairwise.nil
  · exact mints_nodup c sched.length (by omega) (by omega)

/-- Witness for C5: three concurrent calls by threads 7, 3, 5 hitting the
counter in that order return 0, 1, 2 with no duplicates. -/
theorem c5_concurrent_next_key_distinct_witness :
    (0 : Nat) + ([7, 3, 5] : List Nat).length ≤ U64 ∧
    ((runSched ⟨0⟩ [7, 3, 5]).map Prod.snd
        = (List.range ([7, 3, 5] : List Nat).length).map (fun i => 0 + i) ∧
      ((runSched ⟨0⟩ [7, 3, 5]).map Prod.snd).Nodup) :=
  ⟨by decide, c5_concurrent_next_key_distinct ⟨0⟩ [7, 3, 5] (by decide)⟩

/-- C5 counterexample at the u64 wrap: in a serialization of `2 ^ 64 + 1`
concurrent calls two calls return the same value. -/
theorem c5_concurrent_next_key_wrap_counterexample :
    ¬ (((runSched ⟨0⟩ (List.range (U64 + 1))).map Prod.snd).Nodup) := by
  intro h
  rw [runSched_keys, List.length_range] at h
  exact mints_wrap_not_nodup h

/-- C4 (amended): keys minted through a batch, through a transaction context,
and through direct inserts on the same handle all come from the one shared
generator instance: any interleaving across the three write paths mints the
single sequence determined by the shared counter alone (independent of which
path each mint takes), with no duplicate key across paths provided at most
`2 ^ 64` keys are minted in total. -/
theorem c4_shared_generator_no_duplicates (V : Type) (st : MultiState V)
    (ops : List (WPath × V)) (hc : st.handle.key_generator.val < U64)
    (hn : ops.length ≤ U64) :
    (multiExec st ops).1 = mints st.handle.key_generator ops.length ∧
    (multiExec st ops).1.Nodup := by
  refine ⟨multiExec_keys st ops, ?_⟩
  rw [multiExec_keys st ops]
  by_cases h0 : ops.length = 0
  · rw [h0]; exact List.Pairwise.nil
  · exact mints_nodup st.handle.key_generator ops.length hc hn

/-- Witness for C4: one batch mint, one direct mint and one transactional
mint interleaved on a fresh handle mint the shared sequence 0, 1, 2 with no
duplicates. -/
theorem c4_shared_generator_no_duplicates_witness :
    ((⟨⟨⟨0⟩, []⟩, ⟨[]⟩, []⟩ : MultiState Nat).handle.key_generator.val < U64) ∧
    (([(WPath.batch, 1), (WPath.direct, 2), (WPath.txn, 3)] : List (WPath × Nat)).length ≤ U64) ∧
    ((multiExec (⟨⟨⟨0⟩, []⟩, ⟨[]⟩, []⟩ : MultiState Nat)
        [(WPath.batch, 1), (WPath.direct, 2), (WPath.txn, 3)]).1
      = mints (⟨⟨⟨0⟩, []⟩, ⟨[]⟩, []⟩ : MultiState Nat).handle.key_generator 3 ∧
      (multiExec (⟨⟨⟨0⟩, []⟩, ⟨[]⟩, []⟩ : MultiState Nat)
        [(WPath.batch, 1), (WPath.direct, 2), (WPath.txn, 3)]).1.Nodup) :=
  ⟨by decide, by decide,
    c4_shared_generator_no_duplicates Nat ⟨⟨⟨0⟩, []⟩, ⟨[]⟩, []⟩
      [(WPath.batch, 1), (WPath.direct, 2), (WPath.txn, 3)] (by decide) (by decide)⟩

/-- C4 counterexample at the u64 wrap: an interleaving of `2 ^ 64 + 1` mints
(one through the batch path, the rest direct) repeats a key across paths. -/
theorem c4_shared_generator_wrap_counterexample :
    ¬ ((multiExec (⟨⟨⟨0⟩, []⟩, ⟨[]⟩, []⟩ : MultiState Nat)
        ((WPath.batch, 0) :: List.replicate U64 (WPath.direct, 0))).1.Nodup) := by
  intro h
  rw [multiExec_keys] at h
  have hlen : ((WPath.batch, (0 : Nat)) :: List.replicate U64 (WPath.direct, (0 : Nat))).length
      = U64 + 1 := by
    rw [List.length_cons, List.length_replicate]
  rw [hlen] at h
  exact mints_wrap_not_nodup h

/-- C1 (amended): for a counter-strategy instance initialized from partition
contents `t`, the keys returned by successive `next_key` calls are strictly
increasing (each strictly greater than all previously returned) and strictly
greater than every key present in the store at initialization, provided no
u64 wraparound occurs: the number of calls `n` is at most `2 ^ 64` and every
key `k` in the store satisfies `k + 1 + n ≤ 2 ^ 64`. -/
theorem c1_next_key_monotone_of_no_wrap (V : Type) (t : List (Nat × V))
    (c : Counter) (n : Nat)
    (hinit : Counter.init (Except.ok (Tree.last t)) = Except.ok c)
    (hn : n ≤ U64)
    (hkeys : ∀ p ∈ t, p.1 + 1 + n ≤ U64) :
    (mints c n).Pairwise (· < ·) ∧ ∀ x ∈ mints c n, ∀ p ∈ t, p.1 < x := by
  cases hlast : Tree.last t with
  | none =>
    have ht : t = [] := (tree_last_eq_none_iff t).mp hlast
    subst ht
    rw [hlast] at hinit
    have hc : c = ⟨0⟩ := by
      simp only [Counter.init, Except.ok.injEq] at hinit
      exact hinit.symm
    subst hc
    refine ⟨mints_pairwise_lt ⟨0⟩ n (by simpa using hn), ?_⟩
    intro x hx p hp
    exact absurd hp (List.not_mem_nil p)
  | some m =>
    rw [hlast] at hinit
    have hval : c.val = (m.1 + 1) % U64 := by
      simp only [Counter.init, Except.ok.injEq] at hinit
      rw [← hinit]
    have hm : m ∈ t := tree_last_mem t m hlast
    have hbound : m.1 + 1 + n ≤ U64 := hkeys m hm
    rcases Nat.lt_or_ge (m.1 + 1) U64 with hlt | hge
    · have hval' : c.val = m.1 + 1 := by rw [hval, Nat.mod_eq_of_lt hlt]
      have hnw : c.val + n ≤ U64 := by omega
      refine ⟨mints_pairwise_lt c n hnw, ?_⟩
      intro x hx p hp
      have hge' : c.val ≤ x := mints_lower_bound c n hnw x hx
      have hle : p.1 ≤ m.1 := tree_last_key_max t m hlast p hp
      omega
    · have hn0 : n = 0 := by omega
      subst hn0
      refine ⟨List.Pairwise.nil, ?_⟩
      intro x hx
      exact absurd hx (List.not_mem_nil x)

/-- Witness for C1: from a store whose greatest key is 5 the counter seeds to
6 and two calls return increasing keys greater than 5. -/
theorem c1_next_key_monotone_witness :
    Counter.init (Except.ok (Tree.last [((5 : Nat), (0 : Nat))])) = Except.ok ⟨6⟩ ∧
    (2 : Nat) ≤ U64 ∧
    (∀ p ∈ [((5 : Nat), (0 : Nat))], p.1 + 1 + 2 ≤ U64) ∧
    ((mints ⟨6⟩ 2).Pairwise (· < ·) ∧
      ∀ x ∈ mints ⟨6⟩ 2, ∀ p ∈ [((5 : Nat), (0 : Nat))], p.1 < x) :=
  ⟨rfl, by decide, by decide,
    c1_next_key_monotone_of_no_wrap Nat [((5 : Nat), (0 : Nat))] ⟨6⟩ 2 rfl
      (by decide) (by decide)⟩

/-- C1 counterexample at the u64 wrap: with greatest key `2 ^ 64 - 1` present
at initialization the counter seeds to 0 and the first `next_key` call
returns 0, which is not strictly greater than that key. -/
theorem c1_next_key_monotone_counterexample :
    Counter.init (Except.ok (Tree.last [((U64 - 1 : Nat), (0 : Nat))])) = Except.ok ⟨0⟩ ∧
    mints ⟨0⟩ 1 = [0] ∧ ¬ (U64 - 1 < 0) :=
  ⟨rfl, rfl, Nat.not_lt_zero _⟩

/-- C2 (amended): on a freshly opened generating handle over the empty
partition, `N` direct inserts return exactly the keys `0, 1, ..., N - 1` in
call order, provided `N ≤ 2 ^ 64` (beyond that the keys wrap mod `2 ^ 64`). -/
theorem c2_fresh_handle_insert_keys (V : Type) (vs : List V)
    (hn : vs.length ≤ U64) :
    KeyGeneratingTree.openOk ([] : List (Nat × V)) = Except.ok ⟨⟨0⟩, []⟩ ∧
    ((⟨⟨0⟩, []⟩ : KeyGeneratingTree V).insertMany vs).1.map Prod.fst
      = List.range vs.length := by
  refine ⟨rfl, ?_⟩
  rw [insertMany_keys]
  rw [mints_eq_of_no_wrap ⟨0⟩ vs.length (by simpa using hn)]
  simp

/-- Witness for C2: two inserts on a fresh handle return keys 0, 1 (the
module documentation example). -/
theorem c2_fresh_handle_insert_keys_witness :
    ([(5 : Nat), 6].length ≤ U64) ∧
    (KeyGeneratingTree.openOk ([] : List (Nat × Nat)) = Except.ok ⟨⟨0⟩, []⟩ ∧
      ((⟨⟨0⟩, []⟩ : KeyGeneratingTree Nat).insertMany [5, 6]).1.map Prod.fst
        = List.range ([(5 : Nat), 6].length)) :=
  ⟨by decide, c2_fresh_handle_insert_keys Nat [5, 6] (by decide)⟩

/-- C2 counterexample at the u64 wrap: `2 ^ 64 + 1` inserts on a fresh handle
do not return the keys `0, ..., 2 ^ 64` — the key of the last call has
wrapped to 0. -/
theorem c2_fresh_handle_insert_keys_counterexample :
    ((⟨⟨0⟩, []⟩ : KeyGeneratingTree Nat).insertMany
        (List.replicate (U64 + 1) 0)).1.map Prod.fst
      ≠ List.range (U64 + 1) := by
  intro h
  rw [insertMany_keys, List.length_replicate] at h
  have hd : (mints (⟨⟨0⟩, []⟩ : KeyGeneratingTree Nat).key_generator (U64 + 1)).Nodup := by
    rw [h]
    exact List.nodup_range _
  exact mints_wrap_not_nodup hd

/-- C3 (amended): opening a handle over a partition whose greatest key is `k`
seeds the counter to `k + 1` and the first insert returns `k + 1 > k`,
provided `k + 1 < 2 ^ 64`; over a partition with no entries the counter is
seeded to 0 (unconditionally). -/
theorem c3_reopen_seed_succ_max (V : Type) (t : List (Nat × V)) (k : Nat)
    (v w : V) (hlast : Tree.last t = some (k, v)) (hk : k + 1 < U64) :
    Counter.init (Except.ok (Tree.last t)) = Except.ok ⟨k + 1⟩ ∧
    (∃ h : KeyGeneratingTree V, KeyGeneratingTree.openOk t = Except.ok h ∧
      (h.insert w).1.1 = k + 1 ∧ k < (h.insert w).1.1) ∧
    Counter.init (Except.ok (Tree.last ([] : List (Nat × V)))) = Except.ok ⟨0⟩ := by
  have hfirst : Counter.init (Except.ok (Tree.last t)) = Except.ok (⟨k + 1⟩ : Counter) := by
    rw [hlast]
    simp [Counter.init, Nat.mod_eq_of_lt hk]
  refine ⟨hfirst, ⟨⟨⟨k + 1⟩, t⟩, ?_, rfl, Nat.lt_succ_self k⟩, rfl⟩
  simp [KeyGeneratingTree.openOk, KeyGeneratingTree.openWith, hfirst]

/-- Witness for C3: reopening over a partition with greatest key 4 seeds the
counter to 5 and the first insert returns key 5 > 4. -/
theorem c3_reopen_seed_succ_max_witness :
    Tree.last [((4 : Nat), (10 : Nat)), (2, 20)] = some (4, 10) ∧
    (4 : Nat) + 1 < U64 ∧
    (Counter.init (Except.ok (Tree.last [((4 : Nat), (10 : Nat)), (2, 20)]))
        = Except.ok ⟨4 + 1⟩ ∧
      (∃ h : KeyGeneratingTree Nat,
        KeyGeneratingTree.openOk [((4 : Nat), (10 : Nat)), (2, 20)] = Except.ok h ∧
        (h.insert 99).1.1 = 4 + 1 ∧ 4 < (h.insert 99).1.1) ∧
      Counter.init (Except.ok (Tree.last ([] : List (Nat × Nat)))) = Except.ok ⟨0⟩) :=
  ⟨by decide, by decide,
    c3_reopen_seed_succ_max Nat [((4 : Nat), (10 : Nat)), (2, 20)] 4 10 99
      (by decide) (by decide)⟩

/-- C3 counterexample at the u64 wrap: over a partition whose greatest key is
`2 ^ 64 - 1` the counter seeds to 0 (not to `k + 1`), and the first insert
returns key 0, which is not greater than `k`. -/
theorem c3_reopen_seed_succ_max_counterexample :
    Counter.init (Except.ok (Tree.last [((U64 - 1 : Nat), (0 : Nat))])) = Except.ok ⟨0⟩ ∧
    ((⟨⟨0⟩, [((U64 - 1 : Nat), (0 : Nat))]⟩ : KeyGeneratingTree Nat).insert 0).1.1 = 0 ∧
    (0 : Nat) ≤ U64 - 1 :=
  ⟨rfl, rfl, Nat.zero_le _⟩

/-- C8 (amended): building a batch of `M` inserts on a handle leaves the
store untouched and queues exactly the `M` minted-key inserts; provided the
counter state is a valid u64 and `M ≤ 2 ^ 64`, the minted keys are `M`
distinct keys and applying the batch maps each of them to the value supplied
in the corresponding insert call. -/
theorem c8_batch_apply_distinct_keys (V : Type) (t : KeyGeneratingTree V)
    (vs : List V) (hc : t.key_generator.val < U64) (hn : vs.length ≤ U64) :
    (t.buildBatch vs).2.inner = t.inner ∧
    (t.buildBatch vs).1.inner = insOps ((mints t.key_generator vs.length).zip vs) ∧
    (mints t.key_generator vs.length).Nodup ∧
    (mints t.key_generator vs.length).length = vs.length ∧
    (∀ p ∈ (mints t.key_generator vs.length).zip vs,
      Tree.lookup (((t.buildBatch vs).2.apply_batch (t.buildBatch vs).1).inner) p.1
        = some p.2) := by
  have hbuild := buildBatch_keys t vs
  have hnd : (mints t.key_generator vs.length).Nodup := by
    by_cases h0 : vs.length = 0
    · rw [h0]; exact List.Pairwise.nil
    · exact mints_nodup t.key_generator vs.length hc hn
  have hlen : (mints t.key_generator vs.length).length = vs.length :=
    mints_length t.key_generator vs.length
  refine ⟨rfl, hbuild, hnd, hlen, ?_⟩
  intro p hp
  have happly : ((t.buildBatch vs).2.apply_batch (t.buildBatch vs).1).inner
      = Tree.apply_batch t.inner ((t.buildBatch vs).1.inner) := rfl
  rw [happly, hbuild]
  have hndfst : (((mints t.key_generator vs.length).zip vs).map Prod.fst).Nodup := by
    rw [List.map_fst_zip _ _ (Nat.le_of_eq hlen)]
    exact hnd
  exact apply_insOps_lookup_mem _ t.inner hndfst p hp

/-- Witness for C8: a batch of two inserts on a fresh handle touches nothing
until applied, queues keys 0 and 1, and after apply the store maps 0 to 10
and 1 to 20. -/
theorem c8_batch_apply_distinct_keys_witness :
    ((⟨⟨0⟩, []⟩ : KeyGeneratingTree Nat).key_generator.val < U64) ∧
    (([(10 : Nat), 20].length : Nat) ≤ U64) ∧
    (((⟨⟨0⟩, []⟩ : KeyGeneratingTree Nat).buildBatch [10, 20]).2.inner = [] ∧
      ((⟨⟨0⟩, []⟩ : KeyGeneratingTree Nat).buildBatch [10, 20]).1.inner
        = insOps ((mints ⟨0⟩ ([(10 : Nat), 20].length)).zip [10, 20]) ∧
      (mints (⟨0⟩ : Counter) ([(10 : Nat), 20].length)).Nodup ∧
      (mints (⟨0⟩ : Counter) ([(10 : Nat), 20].length)).length = [(10 : Nat), 20].length ∧
      (∀ p ∈ (mints (⟨0⟩ : Counter) ([(10 : Nat), 20].length)).zip [10, 20],
        Tree.lookup ((((⟨⟨0⟩, []⟩ : KeyGeneratingTree Nat).buildBatch [10, 20]).2.apply_batch
            ((⟨⟨0⟩, []⟩ : KeyGeneratingTree Nat).buildBatch [10, 20]).1).inner) p.1
          = some p.2)) :=
  ⟨by decide, by decide,
    c8_batch_apply_distinct_keys Nat ⟨⟨0⟩, []⟩ [10, 20] (by decide) (by decide)⟩

/-- C8 counterexample at the u64 wrap: a batch built with `2 ^ 64 + 1`
inserts does not hold that many distinct keys — its queued keys repeat. -/
theorem c8_batch_apply_distinct_keys_counterexample :
    ¬ ((((⟨⟨0⟩, []⟩ : KeyGeneratingTree Nat).buildBatch
        (List.replicate (U64 + 1) 0)).1.inner.map BatchOp.opKey).Nodup) := by
  intro h
  rw [buildBatch_keys, insOps_keys, List.length_replicate] at h
  rw [List.map_fst_zip _ _
    (by rw [mints_length, List.length_replicate])] at h
  exact mints_wrap_not_nodup h

end BincodeSled
